import Mathlib

/-!
Verification of the file-selection, period-window and result-writing logic of
the `tasker` / `tasktriage` repository, as a shallow embedding in Lean 4.

Filenames are modelled as `List Char` (Python compares strings by code points,
which matches lexicographic comparison of the character lists).  A directory is
modelled by the list of names it contains; the content of a file and the text
extracted from an image are abstracted as functions from names to text, since
both are opaque I/O or network effects.  `datetime` values are modelled two
ways, mirroring the two representations the code manipulates:

* `TS` is the broken-down timestamp produced by `datetime.strptime` (year,
  month, day, hour, minute, second; microsecond 0);
* `DT` is a point on the time line: a day number (days since 1970-01-01) plus
  the microsecond of day.  `timedelta(days = k)` subtraction, `weekday()` and
  `replace(hour = ..)` act on this representation exactly as in Python, and
  `TS` values are sent to `DT` by the standard civil-from-days conversion, so
  that `datetime` comparisons become lexicographic comparisons on `DT`.
-/

/-- String comparison on code points, exactly Python's `<` on `str`
(and the comparison `sorted` uses). -/
def lexLt : List Char → List Char → Bool
  | [], [] => false
  | [], _ :: _ => true
  | _ :: _, [] => false
  | a :: as, b :: bs => if a < b then true else if b < a then false else lexLt as bs

/-- Prefix test on character lists. -/
def isPref : List Char → List Char → Bool
  | [], _ => true
  | _ :: _, [] => false
  | a :: as, b :: bs => a == b && isPref as bs

/-- Substring test: Python's `needle in name`. -/
def hasSub (needle : List Char) : List Char → Bool
  | [] => isPref needle []
  | c :: rest => isPref needle (c :: rest) || hasSub needle rest

/-- Suffix test on character lists; `pathlib`'s glob with a star-then-extension pattern returns
exactly the directory entries whose name ends with `ext`. -/
def endsW (cs sfx : List Char) : Bool := isPref sfx.reverse cs.reverse

/-- Python `pathlib.PurePath.stem`: the final path component minus its last
suffix.  The last `'.'` splits the name only when it is neither the first nor
the last character. -/
def pstem (cs : List Char) : List Char :=
  let r := cs.reverse
  let sfx := r.takeWhile (fun c => c != '.')
  match r.dropWhile (fun c => c != '.') with
  | _ :: rest => if rest.isEmpty || sfx.isEmpty then cs else rest.reverse
  | [] => cs

/-- Python `pathlib.PurePath.suffix`, the counterpart of `pstem`. -/
def pSuffix (cs : List Char) : List Char :=
  let r := cs.reverse
  let sfx := r.takeWhile (fun c => c != '.')
  match r.dropWhile (fun c => c != '.') with
  | _ :: rest => if rest.isEmpty || sfx.isEmpty then [] else '.' :: sfx.reverse
  | [] => []

/-- Python `s.split(".")[0]`: everything before the first `'.'`. -/
def takeUntilDot (cs : List Char) : List Char := cs.takeWhile (fun c => c != '.')

/-- Python `str.capitalize()` for the ASCII period names used here. -/
def capitalizePy : List Char → List Char
  | [] => []
  | c :: rest => c.toUpper :: rest.map Char.toLower

/-- Numeric value of an ASCII digit character. -/
def dval (c : Char) : Nat := c.toNat - 48

/-- ASCII digit character of a value `0..9`. -/
def digitChar10 : Nat → Char
  | 0 => '0' | 1 => '1' | 2 => '2' | 3 => '3' | 4 => '4'
  | 5 => '5' | 6 => '6' | 7 => '7' | 8 => '8' | 9 => '9'
  | _ => '*'

/-- Fixed-width decimal rendering (most significant digit first), as produced
by `strftime` field formatting with zero padding. -/
def toDigits : Nat → Nat → List Char
  | 0, _ => []
  | w + 1, n => toDigits w (n / 10) ++ [digitChar10 (n % 10)]

/-- Broken-down timestamp as produced by `datetime.strptime`. -/
structure TS where
  y : Nat
  mo : Nat
  d : Nat
  h : Nat
  mi : Nat
  s : Nat
deriving DecidableEq, Repr

/-- Lexicographic comparison of broken-down timestamps; this is exactly how
Python compares two `datetime` values (microseconds are 0 here). -/
def tsLt (a b : TS) : Bool :=
  a.y < b.y || (a.y == b.y && (a.mo < b.mo || (a.mo == b.mo && (a.d < b.d ||
    (a.d == b.d && (a.h < b.h || (a.h == b.h && (a.mi < b.mi ||
      (a.mi == b.mi && a.s < b.s)))))))))

/-- The zero-padded rendering of a timestamp as its fixed-width
`YYYYMMDD_HHMMSS` form (4-digit year, then 2-digit fields). -/
def fmt15 (t : TS) : List Char :=
  toDigits 4 t.y ++ (toDigits 2 t.mo ++ (toDigits 2 t.d ++
    ('_' :: (toDigits 2 t.h ++ (toDigits 2 t.mi ++ toDigits 2 t.s)))))

/-- Field bounds guaranteeing that every component of `fmt15` fits its width. -/
def wfTS (t : TS) : Prop :=
  t.y < 10000 ∧ t.mo < 100 ∧ t.d < 100 ∧ t.h < 100 ∧ t.mi < 100 ∧ t.s < 100

instance (t : TS) : Decidable (wfTS t) := by unfold wfTS; infer_instance

/-- Shape test for an exact `YYYYMMDD_HHMMSS` stem: eight digits, an
underscore, six digits — nothing more. -/
def matchesExact : List Char → Bool
  | [a, b, c, d, e, f, g, h, u, p, q, r, v, w, x] =>
    a.isDigit && b.isDigit && c.isDigit && d.isDigit && e.isDigit && f.isDigit &&
    g.isDigit && h.isDigit && u == '_' && p.isDigit && q.isDigit && r.isDigit &&
    v.isDigit && w.isDigit && x.isDigit
  | _ => false

/-!
`datetime.strptime(s, "%Y%m%d_%H%M%S")` compiles the format to the regular
expression
`(\d\d\d\d)(1[0-2]|0[1-9]|[1-9])(3[01]|[12]\d|0[1-9]|[1-9])_(2[0-3]|[0-1]\d|\d)([0-5]\d|\d)([0-5]\d|\d)`,
runs `re.match` (leftmost match with alternatives tried in order and full
backtracking, the match need not reach the end of the string), then raises if
unconverted characters remain, and finally raises while constructing the
`datetime` if the matched fields are not a valid calendar date (this also
rejects year 0).  The candidate lists below enumerate, in the regex's
alternation order, the `(value, rest)` pairs each field pattern can produce;
`List.findSome?` over them is depth-first backtracking in that order.
-/

/-- Candidates of the `%m` pattern `1[0-2]|0[1-9]|[1-9]`. -/
def candM : List Char → List (Nat × List Char)
  | c1 :: c2 :: rest =>
    (if c1 == '1' && ('0' ≤ c2 && c2 ≤ '2') then [(10 + dval c2, rest)] else []) ++
    (if c1 == '0' && ('1' ≤ c2 && c2 ≤ '9') then [(dval c2, rest)] else []) ++
    (if '1' ≤ c1 && c1 ≤ '9' then [(dval c1, c2 :: rest)] else [])
  | [c1] => if '1' ≤ c1 && c1 ≤ '9' then [(dval c1, [])] else []
  | [] => []

/-- Candidates of the `%d` pattern `3[01]|[12]\d|0[1-9]|[1-9]`. -/
def candD : List Char → List (Nat × List Char)
  | c1 :: c2 :: rest =>
    (if c1 == '3' && ('0' ≤ c2 && c2 ≤ '1') then [(30 + dval c2, rest)] else []) ++
    (if ('1' ≤ c1 && c1 ≤ '2') && c2.isDigit then [(10 * dval c1 + dval c2, rest)] else []) ++
    (if c1 == '0' && ('1' ≤ c2 && c2 ≤ '9') then [(dval c2, rest)] else []) ++
    (if '1' ≤ c1 && c1 ≤ '9' then [(dval c1, c2 :: rest)] else [])
  | [c1] => if '1' ≤ c1 && c1 ≤ '9' then [(dval c1, [])] else []
  | [] => []

/-- Candidates of the `%H` pattern `2[0-3]|[0-1]\d|\d`. -/
def candH : List Char → List (Nat × List Char)
  | c1 :: c2 :: rest =>
    (if c1 == '2' && ('0' ≤ c2 && c2 ≤ '3') then [(20 + dval c2, rest)] else []) ++
    (if ('0' ≤ c1 && c1 ≤ '1') && c2.isDigit then [(10 * dval c1 + dval c2, rest)] else []) ++
    (if c1.isDigit then [(dval c1, c2 :: rest)] else [])
  | [c1] => if c1.isDigit then [(dval c1, [])] else []
  | [] => []

/-- Candidates of the `%M` / `%S` pattern `[0-5]\d|\d`. -/
def candMS : List Char → List (Nat × List Char)
  | c1 :: c2 :: rest =>
    (if ('0' ≤ c1 && c1 ≤ '5') && c2.isDigit then [(10 * dval c1 + dval c2, rest)] else []) ++
    (if c1.isDigit then [(dval c1, c2 :: rest)] else [])
  | [c1] => if c1.isDigit then [(dval c1, [])] else []
  | [] => []

/-- The leftmost regex match of `%Y%m%d_%H%M%S` on `cs` (fields plus the
unconsumed remainder), or `none` when the pattern does not match at all. -/
def regexMatch (cs : List Char) : Option (TS × List Char) :=
  match cs with
  | c1 :: c2 :: c3 :: c4 :: rest =>
    if c1.isDigit && c2.isDigit && c3.isDigit && c4.isDigit then
      let y := dval c1 * 1000 + dval c2 * 100 + dval c3 * 10 + dval c4
      (candM rest).findSome? fun mr =>
        (candD mr.2).findSome? fun dr =>
          match dr.2 with
          | '_' :: r3 =>
            (candH r3).findSome? fun hr =>
              (candMS hr.2).findSome? fun mir =>
                (candMS mir.2).findSome? fun sr =>
                  some (⟨y, mr.1, dr.1, hr.1, mir.1, sr.1⟩, sr.2)
          | _ => none
    else none
  | _ => none

/-- Gregorian leap-year rule (as in Python's `calendar` / `datetime`). -/
def isLeap (y : Nat) : Bool := (y % 4 == 0 && y % 100 != 0) || y % 400 == 0

/-- Length of a month, for `datetime`'s day-of-month validation. -/
def daysInMonth (y mo : Nat) : Nat :=
  match mo with
  | 2 => if isLeap y then 29 else 28
  | 4 => 30 | 6 => 30 | 9 => 30 | 11 => 30
  | _ => 31

/-- The validation `datetime(y, mo, d, h, mi, s)` performs on strptime's
matched fields (year 1..9999, valid month, valid day of month; the regex
already bounds hour, minute and second). -/
def validTS (t : TS) : Bool :=
  1 ≤ t.y && t.y ≤ 9999 && 1 ≤ t.mo && t.mo ≤ 12 && 1 ≤ t.d && t.d ≤ daysInMonth t.y t.mo

/-- `datetime.strptime(s, "%Y%m%d_%H%M%S")`, `none` for every input on which
Python raises `ValueError` (no regex match, unconverted trailing characters,
or invalid calendar fields). -/
def strptimeYmdHMS (cs : List Char) : Option TS :=
  match regexMatch cs with
  | some (t, rest) => if rest.isEmpty && validTS t then some t else none
  | none => none

/-- A point on the time line: days since 1970-01-01 plus microsecond of day.
Mirrors a Python `datetime` for arithmetic and comparison purposes. -/
structure DT where
  day : Int
  tod : Int
deriving DecidableEq, Repr

/-- Python `datetime` comparison (`<=`), lexicographic on (date, time). -/
def dtLe (a b : DT) : Bool := a.day < b.day || (a.day == b.day && a.tod ≤ b.tod)

/-- Python `datetime` comparison (`<`). -/
def dtLt (a b : DT) : Bool := a.day < b.day || (a.day == b.day && a.tod < b.tod)

/-- Microseconds since the epoch; differences of `DT`s are differences of
these values. -/
def toMicros (a : DT) : Int := a.day * 86400000000 + a.tod

/-- Hinnant's `days_from_civil`: day number (days since 1970-01-01) of a
proleptic-Gregorian civil date, the arithmetic behind `date.toordinal`. -/
def daysFromCivil (y m d : Int) : Int :=
  let y2 : Int := if m ≤ 2 then y - 1 else y
  let era : Int := (if 0 ≤ y2 then y2 else y2 - 399).tdiv 400
  let yoe : Int := y2 - era * 400
  let doy : Int := (153 * (m + (if 2 < m then -3 else 9)) + 2).tdiv 5 + d - 1
  let doe : Int := yoe * 365 + yoe.tdiv 4 - yoe.tdiv 100 + doy
  era * 146097 + doe - 719468

/-- Hinnant's `civil_from_days`, the inverse conversion (used by `strftime`
on a computed week start). -/
def civilFromDays (z0 : Int) : Int × Int × Int :=
  let z : Int := z0 + 719468
  let era : Int := (if 0 ≤ z then z else z - 146096).tdiv 146097
  let doe : Int := z - era * 146097
  let yoe : Int := (doe - doe.tdiv 1460 + doe.tdiv 36524 - doe.tdiv 146096).tdiv 365
  let y : Int := yoe + era * 400
  let doy : Int := doe - (365 * yoe + yoe.tdiv 4 - yoe.tdiv 100)
  let mp : Int := (5 * doy + 2).tdiv 153
  let d : Int := doy - (153 * mp + 2).tdiv 5 + 1
  let m : Int := mp + (if mp < 10 then 3 else -9)
  (y + (if m ≤ 2 then 1 else 0), m, d)

/-- The time-line point of a parsed timestamp (microsecond 0). -/
def toDT (t : TS) : DT :=
  ⟨daysFromCivil (Int.ofNat t.y) (Int.ofNat t.mo) (Int.ofNat t.d),
   ((Int.ofNat t.h * 60 + Int.ofNat t.mi) * 60 + Int.ofNat t.s) * 1000000⟩

/-- Python `date.weekday()`: 0 = Monday .. 6 = Sunday.  1970-01-01 (day 0)
was a Thursday. -/
def pyWeekday (day : Int) : Int := (day + 3) % 7

/-- English weekday name, `strftime("%A")`. -/
def weekdayName : Int → List Char
  | 0 => "Monday".data | 1 => "Tuesday".data | 2 => "Wednesday".data
  | 3 => "Thursday".data | 4 => "Friday".data | 5 => "Saturday".data
  | 6 => "Sunday".data | _ => []

/-- English month name, `strftime("%B")`. -/
def monthName : Nat → List Char
  | 1 => "January".data | 2 => "February".data | 3 => "March".data
  | 4 => "April".data | 5 => "May".data | 6 => "June".data
  | 7 => "July".data | 8 => "August".data | 9 => "September".data
  | 10 => "October".data | 11 => "November".data | 12 => "December".data
  | _ => []

/-- `file_date.strftime("%A, %B %d, %Y")`, the per-day label the weekly
aggregator prefixes to each collected analysis. -/
def dateLabel (t : TS) : List Char :=
  weekdayName (pyWeekday (toDT t).day) ++ ", ".data ++ monthName t.mo ++
    " ".data ++ toDigits 2 t.d ++ ", ".data ++ toDigits 4 t.y

/-! ### The loader `load_task_notes` (src/tasker/files.py) -/

/-- `TEXT_EXTENSIONS | IMAGE_EXTENSIONS`, the recognized input extensions. -/
def allExts : List (List Char) :=
  [".txt".data, ".png".data, ".jpg".data, ".jpeg".data, ".gif".data, ".webp".data]

/-- `IMAGE_EXTENSIONS`. -/
def imgExts : List (List Char) :=
  [".png".data, ".jpg".data, ".jpeg".data, ".gif".data, ".webp".data]

/-- Whether a name is matched by one of the loader's per-extension glob
calls. -/
def recognizedExt (n : List Char) : Bool := allExts.any (fun e => endsW n e)

/-- The expected analysis-output filename the loader checks: the stem, a
dot, the notes type, then the literal `_analysis.txt`. -/
def anaName (n t : List Char) : List Char :=
  pstem n ++ ('.' :: (t ++ "_analysis.txt".data))

/-- Descending insertion into a descending-sorted list. -/
def insertDesc (x : List Char) : List (List Char) → List (List Char)
  | [] => [x]
  | y :: ys => if lexLt x y then y :: insertDesc x ys else x :: y :: ys

/-- `sorted(names, reverse=True)`. -/
def sortDesc (l : List (List Char)) : List (List Char) := l.foldr insertDesc []

/-- Ascending insertion into an ascending-sorted list. -/
def insertAsc (x : List Char) : List (List Char) → List (List Char)
  | [] => [x]
  | y :: ys => if lexLt y x then y :: insertAsc x ys else x :: y :: ys

/-- `sorted(names)`. -/
def sortAsc (l : List (List Char)) : List (List Char) := l.foldr insertAsc []

/-- The loader's loop over the sorted candidates: skip names containing
`"_analysis"`, skip names whose expected analysis output exists in the
directory, stop at the first remaining name. -/
def findCand (files : List (List Char)) (t : List Char) :
    List (List Char) → Option (List Char)
  | [] => none
  | n :: rest =>
    if hasSub ("_analysis".data) n then findCand files t rest
    else if decide (anaName n t ∈ files) then findCand files t rest
    else some n

/-- The error outcomes of `load_task_notes`: the three `FileNotFoundError`
messages plus the `ValueError` escaping from `datetime.strptime`. -/
inductive LoadErr
  | notMounted
  | dirMissing
  | parseFail
  | noUnanalyzed
deriving DecidableEq, Repr

/-- Content returned for a selected file: image files go through the vision
extractor, text files are read directly. -/
def contentOf (readText extractImage : List Char → List Char) (n : List Char) :
    List Char :=
  if decide ((pSuffix n).map Char.toLower ∈ imgExts) then extractImage n else readText n

/-- `load_task_notes(notes_type)` from src/tasker/files.py.  `rootExists` and
`dirExists` are the two `Path.exists` probes; `files` is the listing of the
`notes_type` directory; `readText` / `extractImage` abstract `Path.read_text`
and the vision-API extraction. -/
def load_task_notes (rootExists dirExists : Bool) (files : List (List Char))
    (notesType : List Char) (readText extractImage : List Char → List Char) :
    Except LoadErr (List Char × List Char × TS) :=
  if !rootExists then .error .notMounted
  else if !dirExists then .error .dirMissing
  else
    let all_files := sortDesc (files.filter recognizedExt)
    match findCand files notesType all_files with
    | none => .error .noUnanalyzed
    | some n =>
      match strptimeYmdHMS (pstem n) with
      | none => .error .parseFail
      | some d => .ok (contentOf readText extractImage n, n, d)

/-! ### The weekly aggregator `collect_weekly_analyses` (src/tasker/files.py) -/

/-- The previous-week window: `days_since_sunday = (weekday(now)+1) % 7`,
`last_sunday = now - days_since_sunday`, `last_monday = last_sunday - 6`,
then the times are pinned to start/end of day. -/
def windowOf (now : DT) : DT × DT :=
  let dss : Int := (pyWeekday now.day + 1) % 7
  let lastSunday : Int := now.day - dss
  let lastMonday : Int := lastSunday - 6
  (⟨lastMonday, 0⟩, ⟨lastSunday, 86399999999⟩)

/-- The aggregator's per-file step up to date parsing and the window test:
parse the part of the stem before the first dot, keep the timestamp when it
lies in the inclusive window, skip the file otherwise (and on parse failure). -/
def winTS (ws we : DT) (p : List Char) : Option TS :=
  (strptimeYmdHMS (takeUntilDot (pstem p))).bind fun t =>
    if dtLe ws (toDT t) && dtLe (toDT t) we then some t else none

/-- The labelled block appended for one in-window analysis file: two hash
marks, the date label, a blank line, then the file content. -/
def procFile (ws we : DT) (content : List Char → List Char) (p : List Char) :
    Option (List Char) :=
  (winTS ws we p).map (fun t => "## ".data ++ dateLabel t ++ "\n\n".data ++ content p)

/-- `sorted(daily_dir.glob("*.daily_analysis.txt"))`. -/
def weeklyCands (dailyFiles : List (List Char)) : List (List Char) :=
  sortAsc (dailyFiles.filter (fun n => endsW n (".daily_analysis.txt".data)))

/-- The `collected_analyses` list built by the aggregator's loop. -/
def collectedOf (dailyFiles : List (List Char)) (content : List Char → List Char)
    (now : DT) : List (List Char) :=
  (weeklyCands dailyFiles).filterMap (procFile (windowOf now).1 (windowOf now).2 content)

/-- The error outcomes of `collect_weekly_analyses`. -/
inductive WeekErr
  | notMounted
  | dirMissing
  | noRecords
deriving DecidableEq, Repr

/-- The weekly output name: the window start rendered as eight digits
followed by the literal `.week.txt`. -/
def weeklyOutName (ws : DT) : List Char :=
  (toDigits 4 (civilFromDays ws.day).1.toNat ++
   toDigits 2 (civilFromDays ws.day).2.1.toNat ++
   toDigits 2 (civilFromDays ws.day).2.2.toNat) ++ ".week.txt".data

/-- `collect_weekly_analyses()` from src/tasker/files.py.  `now` is the value
of `datetime.now()`; `dailyFiles` lists the `daily` directory; `content`
abstracts `Path.read_text` on the analysis files.  (Creating the `weekly`
directory is a side effect with no bearing on the returned value and is not
modelled.) -/
def collect_weekly_analyses (rootExists dailyExists : Bool)
    (dailyFiles : List (List Char)) (content : List Char → List Char) (now : DT) :
    Except WeekErr (List Char × List Char × DT × DT) :=
  if !rootExists then .error .notMounted
  else if !dailyExists then .error .dirMissing
  else
    let ws := (windowOf now).1
    let we := (windowOf now).2
    let collected := collectedOf dailyFiles content now
    if collected.isEmpty then .error .noRecords
    else .ok (List.intercalate ("\n\n---\n\n".data) collected, weeklyOutName ws, ws, we)

/-! ### The writer `save_analysis` (src/tasker/files.py) -/

/-- `save_analysis(analysis, input_path, notes_type)`: returns the output
filename (placed next to the input, so the name determines the path) and the
formatted text written to it. -/
def save_analysis (analysis input_name notes_type : List Char) :
    List Char × List Char :=
  let output_filename := pstem input_name ++ ('.' :: (notes_type ++ "_analysis.txt".data))
  let header := capitalizePy notes_type ++ " Task Analysis".data
  (output_filename,
   header ++ ('\n' :: (List.replicate 40 '=' ++ ("\n\n".data ++ (analysis ++ ['\n'])))))

/-! ### The batch CLI (src/tasktriage/cli.py)

The CLI's collaborators (`load_all_unanalyzed_task_notes`, `analyze_tasks`
with `save_analysis`, `_find_weeks_needing_analysis` and the per-week
collection) are network/filesystem effects; each is abstracted by the outcome
it produces: a fatal `FileNotFoundError`-style failure or its result.  What is
modelled is `main`'s own control flow: the per-item `try`/`except` inside
`analyze_single_file`, the success/failure tally, the weekly loop with its own
tally, and the final `if failed > 0: sys.exit(1)`. -/

/-- One CLI result record `(notes_path, output_path, success, error_message)`
as returned by `analyze_single_file`. -/
def analyze_single_file (notes_path : List Char)
    (outcome : Except (List Char) (List Char)) :
    List Char × Option (List Char) × Bool × Option (List Char) :=
  match outcome with
  | .ok outPath => (notes_path, some outPath, true, none)
  | .error msg => (notes_path, none, false, some msg)

/-- The result records of the daily fan-out, one per loaded item. -/
def batchResults (items : List (List Char × Except (List Char) (List Char))) :
    List (List Char × Option (List Char) × Bool × Option (List Char)) :=
  items.map (fun it => analyze_single_file it.1 it.2)

/-- The `(successful, failed)` tally printed in the summary. -/
def batchCounts (results : List (List Char × Option (List Char) × Bool × Option (List Char))) :
    Nat × Nat :=
  (results.countP (fun r => r.2.2.1), results.countP (fun r => !r.2.2.1))

/-- The process exit code of `main`.  `loadRes` is the outcome of source
resolution plus `load_all_unanalyzed_task_notes` (a fatal error, or the loaded
items each tagged with the outcome of its analyze-and-save step); `weeksRes`
is the outcome of `_find_weeks_needing_analysis` (a fatal error, or the
per-week success flags of the roll-up loop, whose failures are caught inside
the loop). -/
def cliExitCode
    (loadRes : Except Unit (List (List Char × Except (List Char) (List Char))))
    (weeksRes : Except Unit (List Bool)) : Nat :=
  match loadRes with
  | .error _ => 1
  | .ok items =>
    let failed := (batchCounts (batchResults items)).2
    match weeksRes with
    | .error _ => 1
    | .ok _weeks => if 0 < failed then 1 else 0

/-! ### Predicates used by the statements -/

/-- The ordering invariant of a descending-sorted list. -/
def SortedDescP (l : List (List Char)) : Prop :=
  l.Pairwise (fun a b => lexLt a b = false)

/-- The ordering invariant of an ascending-sorted list. -/
def SortedAscP (l : List (List Char)) : Prop :=
  l.Pairwise (fun a b => lexLt b a = false)

/-- A remaining candidate: the properties the loop checks before accepting a
name (the extension filter is applied before the sort). -/
def IsCand (files : List (List Char)) (t n : List Char) : Prop :=
  recognizedExt n = true ∧ hasSub ("_analysis".data) n = false ∧ anaName n t ∉ files

instance (files : List (List Char)) (t n : List Char) :
    Decidable (IsCand files t n) := by unfold IsCand; infer_instance

/-- The parsed timestamps of the collected files, in output order, paired
with the filenames they came from. -/
def pairSeq (dailyFiles : List (List Char)) (now : DT) : List (List Char × TS) :=
  (weeklyCands dailyFiles).filterMap
    (fun p => (winTS (windowOf now).1 (windowOf now).2 p).map (fun t => (p, t)))


/-! ### Order lemmas for filename comparison and sorting -/

theorem lexLt_irrefl (l : List Char) : lexLt l l = false := by
  induction l with
  | nil => rfl
  | cons c t ih => simp [lexLt, lt_irrefl, ih]

theorem lexLt_asymm {a b : List Char} (h : lexLt a b = true) : lexLt b a = false := by
  induction a generalizing b with
  | nil =>
    cases b with
    | nil => simp [lexLt]
    | cons y ys => simp [lexLt]
  | cons x xs ih =>
    cases b with
    | nil => simp [lexLt] at h
    | cons y ys =>
      by_cases hxy : x < y
      · have hyx : ¬ y < x := fun h2 => absurd (lt_trans hxy h2) (lt_irrefl x)
        simp [lexLt, hxy, hyx]
      · by_cases hyx : y < x
        · simp [lexLt, hxy, hyx] at h
        · simp only [lexLt, if_neg hxy, if_neg hyx] at h
          simp [lexLt, hxy, hyx, ih h]

theorem lexLt_trans {a b c : List Char} (h1 : lexLt a b = true) (h2 : lexLt b c = true) :
    lexLt a c = true := by
  induction a generalizing b c with
  | nil =>
    cases c with
    | nil =>
      cases b with
      | nil => exact h1
      | cons y ys => simp [lexLt] at h2
    | cons z zs => simp [lexLt]
  | cons x xs ih =>
    cases b with
    | nil => simp [lexLt] at h1
    | cons y ys =>
      cases c with
      | nil => simp [lexLt] at h2
      | cons z zs =>
        by_cases hxy : x < y <;> by_cases hyz : y < z
        · simp [lexLt, lt_trans hxy hyz]
        · by_cases hzy : z < y
          · simp [lexLt, hyz, hzy] at h2
          · have hyz' : y = z := le_antisymm (le_of_not_lt hzy) (le_of_not_lt hyz)
            subst hyz'
            simp [lexLt, hxy]
        · by_cases hyx : y < x
          · simp [lexLt, hxy, hyx] at h1
          · have hxy' : x = y := le_antisymm (le_of_not_lt hyx) (le_of_not_lt hxy)
            subst hxy'
            simp only [lexLt, if_neg hxy, if_neg hxy] at h1
            simp [lexLt, hyz, h1]
        · by_cases hyx : y < x
          · simp [lexLt, hxy, hyx] at h1
          · have hxy' : x = y := le_antisymm (le_of_not_lt hyx) (le_of_not_lt hxy)
            subst hxy'
            by_cases hzy : z < x
            · simp [lexLt, hyz, hzy] at h2
            · have hyz' : x = z := le_antisymm (le_of_not_lt hzy) (le_of_not_lt hyz)
              subst hyz'
              simp only [lexLt, if_neg hxy, if_neg hxy] at h1 h2 ⊢
              exact ih h1 h2

theorem lexLt_antisymm {a b : List Char} (h1 : lexLt a b = false) (h2 : lexLt b a = false) :
    a = b := by
  induction a generalizing b with
  | nil =>
    cases b with
    | nil => rfl
    | cons y ys => simp [lexLt] at h1
  | cons x xs ih =>
    cases b with
    | nil => simp [lexLt] at h2
    | cons y ys =>
      by_cases hxy : x < y
      · simp [lexLt, hxy] at h1
      · by_cases hyx : y < x
        · simp [lexLt, hyx] at h2
        · have hxy' : x = y := le_antisymm (le_of_not_lt hyx) (le_of_not_lt hxy)
          subst hxy'
          simp only [lexLt, if_neg hxy, if_neg hxy] at h1 h2
          rw [ih h1 h2]

theorem lexLt_connex {a b : List Char} (h : lexLt a b = false) :
    lexLt b a = true ∨ a = b := by
  by_cases hba : lexLt b a = true
  · exact Or.inl hba
  · exact Or.inr (lexLt_antisymm h (by simpa using hba))

theorem lexLt_not_trans {a b c : List Char} (h1 : lexLt a b = false)
    (h2 : lexLt b c = false) : lexLt a c = false := by
  by_cases hac : lexLt a c = true
  · rcases lexLt_connex h2 with hcb | hbc
    · exact absurd (lexLt_trans hac hcb) (by simp [h1])
    · subst hbc
      exact absurd hac (by simp [h1])
  · simpa using hac

theorem mem_insertDesc {a x : List Char} {l : List (List Char)} :
    a ∈ insertDesc x l ↔ a = x ∨ a ∈ l := by
  induction l with
  | nil => simp [insertDesc]
  | cons y ys ih =>
    by_cases h : lexLt x y = true
    · simp only [insertDesc, if_pos h, List.mem_cons, ih]
      tauto
    · simp only [insertDesc, if_neg h, List.mem_cons]

theorem mem_sortDesc {a : List Char} {l : List (List Char)} :
    a ∈ sortDesc l ↔ a ∈ l := by
  induction l with
  | nil => simp [sortDesc]
  | cons y ys ih =>
    simp only [sortDesc, List.foldr_cons, mem_insertDesc]
    simp only [sortDesc] at ih
    simp [ih]

theorem sortedDesc_insertDesc {x : List Char} {l : List (List Char)}
    (h : SortedDescP l) : SortedDescP (insertDesc x l) := by
  induction l with
  | nil => simp [insertDesc, SortedDescP]
  | cons y ys ih =>
    rcases (List.pairwise_cons.mp h) with ⟨hy, hys⟩
    by_cases hxy : lexLt x y = true
    · simp only [insertDesc, if_pos hxy]
      refine List.pairwise_cons.mpr ⟨?_, ih hys⟩
      intro b hb
      rcases mem_insertDesc.mp hb with rfl | hbys
      · exact lexLt_asymm hxy
      · exact hy b hbys
    · simp only [insertDesc, if_neg hxy]
      refine List.pairwise_cons.mpr ⟨?_, h⟩
      intro b hb
      rcases List.mem_cons.mp hb with rfl | hbys
      · simpa using hxy
      · exact lexLt_not_trans (by simpa using hxy) (hy b hbys)

theorem sortedDesc_sortDesc (l : List (List Char)) : SortedDescP (sortDesc l) := by
  induction l with
  | nil => simp [sortDesc, SortedDescP]
  | cons y ys ih => exact sortedDesc_insertDesc ih

theorem mem_insertAsc {a x : List Char} {l : List (List Char)} :
    a ∈ insertAsc x l ↔ a = x ∨ a ∈ l := by
  induction l with
  | nil => simp [insertAsc]
  | cons y ys ih =>
    by_cases h : lexLt y x = true
    · simp only [insertAsc, if_pos h, List.mem_cons, ih]
      tauto
    · simp only [insertAsc, if_neg h, List.mem_cons]

theorem mem_sortAsc {a : List Char} {l : List (List Char)} :
    a ∈ sortAsc l ↔ a ∈ l := by
  induction l with
  | nil => simp [sortAsc]
  | cons y ys ih =>
    simp only [sortAsc, List.foldr_cons, mem_insertAsc]
    simp only [sortAsc] at ih
    simp [ih]

theorem sortedAsc_insertAsc {x : List Char} {l : List (List Char)}
    (h : SortedAscP l) : SortedAscP (insertAsc x l) := by
  induction l with
  | nil => simp [insertAsc, SortedAscP]
  | cons y ys ih =>
    rcases (List.pairwise_cons.mp h) with ⟨hy, hys⟩
    by_cases hyx : lexLt y x = true
    · simp only [insertAsc, if_pos hyx]
      refine List.pairwise_cons.mpr ⟨?_, ih hys⟩
      intro b hb
      rcases mem_insertAsc.mp hb with rfl | hbys
      · exact lexLt_asymm hyx
      · exact hy b hbys
    · simp only [insertAsc, if_neg hyx]
      refine List.pairwise_cons.mpr ⟨?_, h⟩
      intro b hb
      rcases List.mem_cons.mp hb with rfl | hbys
      · simpa using hyx
      · exact lexLt_not_trans (hy b hbys) (by simpa using hyx)

theorem sortedAsc_sortAsc (l : List (List Char)) : SortedAscP (sortAsc l) := by
  induction l with
  | nil => simp [sortAsc, SortedAscP]
  | cons y ys ih => exact sortedAsc_insertAsc ih

theorem perm_insertAsc (x : List Char) (l : List (List Char)) :
    List.Perm (insertAsc x l) (x :: l) := by
  induction l with
  | nil => simp [insertAsc]
  | cons y ys ih =>
    by_cases h : lexLt y x = true
    · simp only [insertAsc, if_pos h]
      exact ((ih.cons y).trans (List.Perm.swap x y ys))
    · simp [insertAsc, if_neg h]

theorem perm_sortAsc (l : List (List Char)) : List.Perm (sortAsc l) l := by
  induction l with
  | nil => simp [sortAsc]
  | cons y ys ih =>
    exact (perm_insertAsc y (sortAsc ys)).trans (ih.cons y)

/-! ### Behaviour of the loader's candidate loop -/

/-- The loop's acceptance test, as a proposition on the pre-filtered list. -/
theorem findCand_some {files l : List (List Char)} {t : List Char}
    {n : List Char} (h : findCand files t l = some n) :
    n ∈ l ∧ hasSub ("_analysis".data) n = false ∧ anaName n t ∉ files := by
  induction l with
  | nil => simp [findCand] at h
  | cons m rest ih =>
    by_cases h1 : hasSub ("_analysis".data) m = true
    · simp only [findCand, if_pos h1] at h
      rcases ih h with ⟨hmem, hp⟩
      exact ⟨List.mem_cons_of_mem m hmem, hp⟩
    · by_cases h2 : anaName m t ∈ files
      · simp only [findCand, if_neg h1, if_pos (decide_eq_true h2)] at h
        rcases ih h with ⟨hmem, hp⟩
        exact ⟨List.mem_cons_of_mem m hmem, hp⟩
      · simp only [findCand, if_neg h1,
          if_neg (fun hh => h2 (of_decide_eq_true hh)), Option.some.injEq] at h
        subst h
        exact ⟨List.mem_cons_self m rest, by simpa using h1, h2⟩

theorem findCand_none {files l : List (List Char)} {t : List Char} :
    findCand files t l = none ↔
      ∀ m ∈ l, hasSub ("_analysis".data) m = true ∨ anaName m t ∈ files := by
  induction l with
  | nil => simp [findCand]
  | cons m rest ih =>
    by_cases h1 : hasSub ("_analysis".data) m = true
    · simp only [findCand, if_pos h1]
      rw [ih]
      constructor
      · intro h x hx
        rcases List.mem_cons.mp hx with rfl | hxr
        · exact Or.inl h1
        · exact h x hxr
      · intro h x hx
        exact h x (List.mem_cons_of_mem m hx)
    · by_cases h2 : anaName m t ∈ files
      · simp only [findCand, if_neg h1, if_pos (decide_eq_true h2)]
        rw [ih]
        constructor
        · intro h x hx
          rcases List.mem_cons.mp hx with rfl | hxr
          · exact Or.inr h2
          · exact h x hxr
        · intro h x hx
          exact h x (List.mem_cons_of_mem m hx)
      · simp only [findCand, if_neg h1, if_neg (fun hh => h2 (of_decide_eq_true hh))]
        constructor
        · intro h
          simp at h
        · intro h
          rcases h m (List.mem_cons_self m rest) with hc | hc
          · exact absurd hc h1
          · exact absurd hc h2

theorem findCand_max {files l : List (List Char)} {t : List Char}
    {n : List Char} (hs : SortedDescP l) (h : findCand files t l = some n) :
    ∀ m ∈ l, hasSub ("_analysis".data) m = false → anaName m t ∉ files →
      lexLt n m = false := by
  induction l with
  | nil => simp [findCand] at h
  | cons x rest ih =>
    rcases (List.pairwise_cons.mp hs) with ⟨hx, hrest⟩
    by_cases h1 : hasSub ("_analysis".data) x = true
    · simp only [findCand, if_pos h1] at h
      intro m hm hm1 hm2
      rcases List.mem_cons.mp hm with rfl | hmr
      · exact absurd h1 (by simp [hm1])
      · exact ih hrest h m hmr hm1 hm2
    · by_cases h2 : anaName x t ∈ files
      · simp only [findCand, if_neg h1, if_pos (decide_eq_true h2)] at h
        intro m hm hm1 hm2
        rcases List.mem_cons.mp hm with rfl | hmr
        · exact absurd h2 hm2
        · exact ih hrest h m hmr hm1 hm2
      · simp only [findCand, if_neg h1, if_neg (fun hh => h2 (of_decide_eq_true hh)),
          Option.some.injEq] at h
        subst h
        intro m hm hm1 hm2
        rcases List.mem_cons.mp hm with rfl | hmr
        · exact lexLt_irrefl m
        · exact hx m hmr

/-! ### Fixed-width digit strings compare like their values -/

theorem lexLt_append_same (d u v : List Char) :
    lexLt (d ++ u) (d ++ v) = lexLt u v := by
  induction d with
  | nil => rfl
  | cons c cs ih => simp [lexLt, lt_irrefl, ih]

theorem digitChar10_lt : ∀ a b : Fin 10, a.val < b.val →
    digitChar10 a.val < digitChar10 b.val := by decide

theorem toDigits_lt {w a b : Nat} (hab : a < b) (hb : b < 10 ^ w)
    (u v : List Char) : lexLt (toDigits w a ++ u) (toDigits w b ++ v) = true := by
  induction w generalizing a b u v with
  | zero => omega
  | succ w ih =>
    have hq : a / 10 ≤ b / 10 := Nat.div_le_div_right (le_of_lt hab)
    have hbq : b / 10 < 10 ^ w := by
      have h10 : b < 10 * 10 ^ w := by
        have hb' := hb
        rw [pow_succ] at hb'
        omega
      exact Nat.div_lt_of_lt_mul h10
    rcases lt_or_eq_of_le hq with hqlt | hqeq
    · have e1 : toDigits (w + 1) a ++ u =
          toDigits w (a / 10) ++ ([digitChar10 (a % 10)] ++ u) := by
        simp [toDigits]
      have e2 : toDigits (w + 1) b ++ v =
          toDigits w (b / 10) ++ ([digitChar10 (b % 10)] ++ v) := by
        simp [toDigits]
      rw [e1, e2]
      exact ih hqlt hbq _ _
    · have hr : a % 10 < b % 10 := by
        have ha' := Nat.div_add_mod a 10
        have hb' := Nat.div_add_mod b 10
        omega
      have e1 : toDigits (w + 1) a ++ u =
          toDigits w (a / 10) ++ (digitChar10 (a % 10) :: u) := by
        simp [toDigits]
      have e2 : toDigits (w + 1) b ++ v =
          toDigits w (b / 10) ++ (digitChar10 (b % 10) :: v) := by
        simp [toDigits]
      rw [e1, e2, hqeq, lexLt_append_same]
      have hlt : digitChar10 (a % 10) < digitChar10 (b % 10) :=
        digitChar10_lt ⟨a % 10, Nat.mod_lt a (by norm_num)⟩
          ⟨b % 10, Nat.mod_lt b (by norm_num)⟩ hr
      simp [lexLt, hlt]

theorem fmt15_order {t1 t2 : TS} (h1 : wfTS t1) (h2 : wfTS t2)
    (hlt : tsLt t1 t2 = true) (u v : List Char) :
    lexLt (fmt15 t1 ++ u) (fmt15 t2 ++ v) = true := by
  obtain ⟨hy1, hm1, hd1, hh1, hi1, hs1⟩ := h1
  obtain ⟨hy2, hm2, hd2, hh2, hi2, hs2⟩ := h2
  unfold fmt15
  simp only [tsLt, Bool.or_eq_true, Bool.and_eq_true, beq_iff_eq,
    decide_eq_true_eq] at hlt
  simp only [List.append_assoc]
  rcases hlt with hy | ⟨hyeq, hrest⟩
  · exact toDigits_lt hy (by simpa using hy2) _ _
  · rw [hyeq, lexLt_append_same]
    rcases hrest with hm | ⟨hmeq, hrest⟩
    · exact toDigits_lt hm (by simpa using hm2) _ _
    · rw [hmeq, lexLt_append_same]
      rcases hrest with hd | ⟨hdeq, hrest⟩
      · exact toDigits_lt hd (by simpa using hd2) _ _
      · rw [hdeq, lexLt_append_same]
        have hstep : ∀ x y : List Char, lexLt ('_' :: x) ('_' :: y) = lexLt x y :=
          fun x y => by simpa using lexLt_append_same ['_'] x y
        simp only [List.cons_append]
        rw [hstep]
        simp only [List.append_assoc]
        rcases hrest with hh | ⟨hheq, hrest⟩
        · exact toDigits_lt hh (by simpa using hh2) _ _
        · rw [hheq, lexLt_append_same]
          rcases hrest with hi | ⟨hieq, hs⟩
          · exact toDigits_lt hi (by simpa using hi2) _ _
          · rw [hieq, lexLt_append_same]
            exact toDigits_lt hs (by simpa using hs2) u v

/-! ### Characterization of the loader -/

/-- The loop finds exactly the lexicographically greatest remaining
candidate. -/
theorem findCand_top_iff (files : List (List Char)) (t : List Char)
    {p : List Char} :
    findCand files t (sortDesc (files.filter recognizedExt)) = some p ↔
      p ∈ files ∧ IsCand files t p ∧
        ∀ q ∈ files, IsCand files t q → lexLt p q = false := by
  constructor
  · intro h
    rcases findCand_some h with ⟨hmem, hsub, hana⟩
    have hmem' := mem_sortDesc.mp hmem
    rcases List.mem_filter.mp hmem' with ⟨hfiles, hrec⟩
    refine ⟨hfiles, ⟨hrec, hsub, hana⟩, ?_⟩
    intro q hq hcq
    rcases hcq with ⟨hqrec, hqsub, hqana⟩
    have hqmem : q ∈ sortDesc (files.filter recognizedExt) :=
      mem_sortDesc.mpr (List.mem_filter.mpr ⟨hq, hqrec⟩)
    exact findCand_max (sortedDesc_sortDesc _) h q hqmem hqsub hqana
  · rintro ⟨hfiles, ⟨hrec, hsub, hana⟩, hmax⟩
    cases hfc : findCand files t (sortDesc (files.filter recognizedExt)) with
    | none =>
      have := findCand_none.mp hfc p
        (mem_sortDesc.mpr (List.mem_filter.mpr ⟨hfiles, hrec⟩))
      rcases this with hc | hc
      · exact absurd hc (by simp [hsub])
      · exact absurd hc hana
    | some n =>
      rcases findCand_some hfc with ⟨hnmem, hnsub, hnana⟩
      have hnmem' := mem_sortDesc.mp hnmem
      rcases List.mem_filter.mp hnmem' with ⟨hnfiles, hnrec⟩
      have h1 : lexLt n p = false :=
        findCand_max (sortedDesc_sortDesc _) hfc p
          (mem_sortDesc.mpr (List.mem_filter.mpr ⟨hfiles, hrec⟩)) hsub hana
      have h2 : lexLt p n = false := hmax n hnfiles ⟨hnrec, hnsub, hnana⟩
      rw [lexLt_antisymm h2 h1]

/-- Unfolding of the loader on an existing root and directory. -/
theorem load_eval (files : List (List Char)) (t : List Char)
    (rf xf : List Char → List Char) :
    load_task_notes true true files t rf xf =
      match findCand files t (sortDesc (files.filter recognizedExt)) with
      | none => .error .noUnanalyzed
      | some n =>
        match strptimeYmdHMS (pstem n) with
        | none => .error .parseFail
        | some d => .ok (contentOf rf xf n, n, d) := rfl

/-- Success characterization of `load_task_notes`: it returns exactly the
greatest (by filename) remaining candidate, with its parsed timestamp and the
content dispatched on the extension. -/
theorem load_ok_iff (files : List (List Char)) (t : List Char)
    (rf xf : List Char → List Char) (c p : List Char) (d : TS) :
    load_task_notes true true files t rf xf = .ok (c, p, d) ↔
      p ∈ files ∧ IsCand files t p ∧
        (∀ q ∈ files, IsCand files t q → lexLt p q = false) ∧
        strptimeYmdHMS (pstem p) = some d ∧ c = contentOf rf xf p := by
  rw [load_eval]
  cases hfc : findCand files t (sortDesc (files.filter recognizedExt)) with
  | none =>
    simp only []
    constructor
    · intro h
      exact absurd h (by simp)
    · rintro ⟨hfiles, hcand, hmax, hparse, hc⟩
      rw [(findCand_top_iff files t).mpr ⟨hfiles, hcand, hmax⟩] at hfc
      exact absurd hfc (by simp)
  | some n =>
    simp only []
    cases hp : strptimeYmdHMS (pstem n) with
    | none =>
      simp only [hp]
      constructor
      · intro h
        exact absurd h (by simp)
      · rintro ⟨hfiles, hcand, hmax, hparse, hc⟩
        rw [(findCand_top_iff files t).mpr ⟨hfiles, hcand, hmax⟩] at hfc
        injection hfc with hfc
        subst hfc
        rw [hp] at hparse
        exact absurd hparse (by simp)
    | some d' =>
      simp only [hp]
      constructor
      · intro h
        simp only [Except.ok.injEq, Prod.mk.injEq] at h
        rcases h with ⟨hc, hpn, hd⟩
        subst hpn
        subst hd
        rcases (findCand_top_iff files t).mp hfc with ⟨hfiles, hcand, hmax⟩
        exact ⟨hfiles, hcand, hmax, hp, hc.symm⟩
      · rintro ⟨hfiles, hcand, hmax, hparse, hc⟩
        rw [(findCand_top_iff files t).mpr ⟨hfiles, hcand, hmax⟩] at hfc
        injection hfc with hfc
        subst hfc
        rw [hp] at hparse
        injection hparse with hparse
        simp [hc, hparse]

/-- Error characterization of `load_task_notes`: the four failure modes and
their exact triggering conditions. -/
theorem load_error_iff (r dir : Bool) (files : List (List Char)) (t : List Char)
    (rf xf : List Char → List Char) :
    (load_task_notes r dir files t rf xf = .error .notMounted ↔ r = false) ∧
    (load_task_notes r dir files t rf xf = .error .dirMissing ↔
      r = true ∧ dir = false) ∧
    (load_task_notes r dir files t rf xf = .error .noUnanalyzed ↔
      r = true ∧ dir = true ∧ ∀ n ∈ files, ¬ IsCand files t n) ∧
    (load_task_notes r dir files t rf xf = .error .parseFail ↔
      r = true ∧ dir = true ∧ ∃ n, n ∈ files ∧ IsCand files t n ∧
        (∀ q ∈ files, IsCand files t q → lexLt n q = false) ∧
        strptimeYmdHMS (pstem n) = none) := by
  cases r with
  | false =>
    unfold load_task_notes
    simp
  | true =>
    cases dir with
    | false =>
      unfold load_task_notes
      simp
    | true =>
      rw [load_eval]
      cases hfc : findCand files t (sortDesc (files.filter recognizedExt)) with
      | none =>
        simp only []
        have hnone : ∀ n ∈ files, ¬ IsCand files t n := by
          intro n hn hcand
          rcases hcand with ⟨hrec, hsub, hana⟩
          rcases findCand_none.mp hfc n
            (mem_sortDesc.mpr (List.mem_filter.mpr ⟨hn, hrec⟩)) with hc | hc
          · exact absurd hc (by simp [hsub])
          · exact absurd hc hana
        refine ⟨?_, ?_, ?_, ?_⟩
        · constructor
          · intro h
            exact absurd h (by simp)
          · rintro h
            exact absurd h (by simp)
        · constructor
          · intro h
            exact absurd h (by simp)
          · rintro ⟨-, h2⟩
            exact absurd h2 (by simp)
        · constructor
          · intro _
            exact ⟨trivial, trivial, hnone⟩
          · intro _
            trivial
        · constructor
          · intro h
            exact absurd h (by simp)
          · rintro ⟨-, -, n, hn, hcand, hmax, hparse⟩
            rw [(findCand_top_iff files t).mpr ⟨hn, hcand, hmax⟩] at hfc
            exact absurd hfc (by simp)
      | some n =>
        simp only []
        rcases (findCand_top_iff files t).mp hfc with ⟨hn, hcand, hmax⟩
        cases hp : strptimeYmdHMS (pstem n) with
        | none =>
          simp only [hp]
          refine ⟨?_, ?_, ?_, ?_⟩
          · constructor
            · intro h
              exact absurd h (by simp)
            · rintro h
              exact absurd h (by simp)
          · constructor
            · intro h
              exact absurd h (by simp)
            · rintro ⟨-, h2⟩
              exact absurd h2 (by simp)
          · constructor
            · intro h
              exact absurd h (by simp)
            · rintro ⟨-, -, hall⟩
              exact absurd hcand (hall n hn)
          · constructor
            · intro _
              exact ⟨trivial, trivial, n, hn, hcand, hmax, hp⟩
            · intro _
              trivial
        | some d =>
          simp only [hp]
          refine ⟨?_, ?_, ?_, ?_⟩
          · constructor
            · intro h
              exact absurd h (by simp)
            · rintro h
              exact absurd h (by simp)
          · constructor
            · intro h
              exact absurd h (by simp)
            · rintro ⟨-, h2⟩
              exact absurd h2 (by simp)
          · constructor
            · intro h
              exact absurd h (by simp)
            · rintro ⟨-, -, hall⟩
              exact absurd hcand (hall n hn)
          · constructor
            · intro h
              exact absurd h (by simp)
            · rintro ⟨-, -, m, hm, hmcand, hmmax, hmparse⟩
              rw [(findCand_top_iff files t).mpr ⟨hm, hmcand, hmmax⟩] at hfc
              injection hfc with hfc
              subst hfc
              rw [hp] at hmparse
              exact absurd hmparse (by simp)

/-! ### The week window -/

theorem windowOf_start_monday (now : DT) : pyWeekday (windowOf now).1.day = 0 := by
  simp only [windowOf, pyWeekday]
  omega

theorem windowOf_end_sunday (now : DT) : pyWeekday (windowOf now).2.day = 6 := by
  simp only [windowOf, pyWeekday]
  omega

theorem windowOf_span (now : DT) :
    (windowOf now).2.day = (windowOf now).1.day + 6 ∧
      (windowOf now).1.tod = 0 ∧ (windowOf now).2.tod = 86399999999 := by
  simp only [windowOf, pyWeekday]
  exact ⟨by omega, trivial, trivial⟩

theorem windowOf_past_of_not_sunday (now : DT) (h : pyWeekday now.day ≠ 6) :
    dtLe (windowOf now).2 now = true := by
  simp only [windowOf, dtLe, pyWeekday] at h ⊢
  simp only [Bool.or_eq_true, decide_eq_true_eq, Bool.and_eq_true, beq_iff_eq]
  omega

theorem windowOf_sunday_ends_today (now : DT) (h : pyWeekday now.day = 6) :
    (windowOf now).2.day = now.day := by
  simp only [windowOf, pyWeekday] at h ⊢
  omega

theorem windowOf_idem (now : DT) : windowOf (windowOf now).2 = windowOf now := by
  simp only [windowOf, pyWeekday, Prod.mk.injEq, DT.mk.injEq, and_true, true_and]
  omega

/-! ### The weekly collection -/

theorem collect_eval (dailyFiles : List (List Char))
    (content : List Char → List Char) (now : DT) :
    collect_weekly_analyses true true dailyFiles content now =
      if (collectedOf dailyFiles content now).isEmpty then .error .noRecords
      else
        .ok (List.intercalate ("\n\n---\n\n".data) (collectedOf dailyFiles content now),
          weeklyOutName (windowOf now).1, (windowOf now).1, (windowOf now).2) := rfl

theorem collectedOf_perm (dailyFiles : List (List Char))
    (content : List Char → List Char) (now : DT) :
    List.Perm (collectedOf dailyFiles content now)
      ((dailyFiles.filter (fun n => endsW n (".daily_analysis.txt".data))).filterMap
        (procFile (windowOf now).1 (windowOf now).2 content)) := by
  unfold collectedOf weeklyCands
  exact (perm_sortAsc _).filterMap _

theorem procFile_skip {ws we : DT} {content : List Char → List Char}
    {p : List Char} (h : strptimeYmdHMS (takeUntilDot (pstem p)) = none) :
    procFile ws we content p = none := by
  unfold procFile winTS
  rw [h]
  rfl

theorem mem_collectedOf {dailyFiles : List (List Char)}
    {content : List Char → List Char} {now : DT} {s : List Char} :
    s ∈ collectedOf dailyFiles content now ↔
      ∃ p, p ∈ dailyFiles ∧ endsW p (".daily_analysis.txt".data) = true ∧
        ∃ ts, strptimeYmdHMS (takeUntilDot (pstem p)) = some ts ∧
          dtLe (windowOf now).1 (toDT ts) = true ∧
          dtLe (toDT ts) (windowOf now).2 = true ∧
          s = "## ".data ++ dateLabel ts ++ "\n\n".data ++ content p := by
  rw [List.Perm.mem_iff (collectedOf_perm dailyFiles content now)]
  rw [List.mem_filterMap]
  constructor
  · rintro ⟨p, hp, hproc⟩
    rcases List.mem_filter.mp hp with ⟨hpf, hsfx⟩
    unfold procFile winTS at hproc
    cases hparse : strptimeYmdHMS (takeUntilDot (pstem p)) with
    | none =>
      rw [hparse] at hproc
      simp at hproc
    | some ts =>
      rw [hparse, Option.some_bind] at hproc
      by_cases hwin : (dtLe (windowOf now).1 (toDT ts) && dtLe (toDT ts) (windowOf now).2) = true
      · rw [if_pos hwin] at hproc
        rcases Bool.and_eq_true _ _ |>.mp hwin with ⟨h1, h2⟩
        refine ⟨p, hpf, hsfx, ts, hparse, h1, h2, ?_⟩
        rw [Option.map_some'] at hproc
        injection hproc with hproc
        exact hproc.symm
      · rw [if_neg hwin] at hproc
        simp at hproc
  · rintro ⟨p, hpf, hsfx, ts, hparse, h1, h2, hs⟩
    refine ⟨p, List.mem_filter.mpr ⟨hpf, hsfx⟩, ?_⟩
    unfold procFile winTS
    rw [hparse, Option.some_bind, if_pos (by simp [h1, h2]), Option.map_some', hs]

theorem pairSeq_names_sorted (dailyFiles : List (List Char)) (now : DT) :
    (pairSeq dailyFiles now).Pairwise (fun a b => lexLt b.1 a.1 = false) := by
  unfold pairSeq
  rw [List.pairwise_filterMap]
  have hs : SortedAscP (weeklyCands dailyFiles) := sortedAsc_sortAsc _
  refine hs.imp_of_mem ?_
  intro a b _ _ hab x hx y hy
  rcases Option.map_eq_some'.mp hx with ⟨ta, hta, hxa⟩
  rcases Option.map_eq_some'.mp hy with ⟨tb, htb, hyb⟩
  subst hxa
  subst hyb
  simpa using hab

theorem pairSeq_ts_ascending (dailyFiles : List (List Char)) (now : DT) :
    (pairSeq dailyFiles now).Pairwise (fun a b =>
      (∃ u, a.1 = fmt15 a.2 ++ u) → (∃ v, b.1 = fmt15 b.2 ++ v) →
        wfTS a.2 → wfTS b.2 → tsLt b.2 a.2 = false) := by
  refine (pairSeq_names_sorted dailyFiles now).imp ?_
  rintro a b hab ⟨u, hu⟩ ⟨v, hv⟩ hwa hwb
  by_cases hlt : tsLt b.2 a.2 = true
  · have := fmt15_order hwb hwa hlt v u
    rw [← hu, ← hv] at this
    rw [this] at hab
    exact absurd hab (by simp)
  · simpa using hlt

/-! ### The batch CLI -/

theorem batchCounts_failed (items : List (List Char × Except (List Char) (List Char))) :
    (batchCounts (batchResults items)).2 = items.countP (fun it => !it.2.isOk) := by
  unfold batchCounts batchResults
  dsimp only
  rw [List.countP_map]
  apply List.countP_congr
  intro it _
  obtain ⟨a, b⟩ := it
  cases b <;> rfl

theorem batchCounts_ok (items : List (List Char × Except (List Char) (List Char))) :
    (batchCounts (batchResults items)).1 = items.countP (fun it => it.2.isOk) := by
  unfold batchCounts batchResults
  dsimp only
  rw [List.countP_map]
  apply List.countP_congr
  intro it _
  obtain ⟨a, b⟩ := it
  cases b <;> rfl

/-! ### Remaining small helpers -/

theorem isPref_self_append (a b : List Char) : isPref a (a ++ b) = true := by
  induction a with
  | nil => rfl
  | cons c cs ih => simp [isPref, ih]

theorem endsW_append (x sfx : List Char) : endsW (x ++ sfx) sfx = true := by
  unfold endsW
  rw [List.reverse_append]
  exact isPref_self_append _ _

theorem filterMap_pair (l : List (List Char)) (g : List Char → Option TS)
    (h : List Char → TS → List Char) :
    l.filterMap (fun p => (g p).map (h p)) =
      (l.filterMap (fun p => (g p).map (fun t => (p, t)))).map
        (fun pt => h pt.1 pt.2) := by
  induction l with
  | nil => rfl
  | cons p rest ih =>
    cases hg : g p <;> simp [List.filterMap_cons, hg, ih]

/-! ### The claims -/

/-- C3: for every input path and period type, `save_analysis` derives the
output name as `{stem}.{period}_analysis.txt`, always with the plain-text
`.txt` extension regardless of the source extension (the `.png` example from
the spec is instantiated), and the written text starts with the
`{Period} Task Analysis` header followed by a rule of forty `=` characters. -/
theorem claim_save_analysis_output :
    (∀ a p t : List Char,
      (save_analysis a p t).1 =
        pstem p ++ ".".data ++ t ++ "_analysis".data ++ ".txt".data ∧
      endsW (save_analysis a p t).1 (".txt".data) = true ∧
      (save_analysis a p t).2 =
        (capitalizePy t ++ " Task Analysis".data) ++
          ('\n' :: (List.replicate 40 '=' ++ ("\n\n".data ++ (a ++ ['\n'])))) ∧
      isPref ((capitalizePy t ++ " Task Analysis".data) ++ ('\n' :: List.replicate 40 '='))
        (save_analysis a p t).2 = true) ∧
    (∀ a : List Char,
      (save_analysis a ("20251231_143000.png".data) "daily".data).1 =
        "20251231_143000.daily_analysis.txt".data) ∧
    (∀ a : List Char,
      isPref ("Daily Task Analysis".data)
        (save_analysis a ("20251231_143000.png".data) "daily".data).2 = true) := by
  refine ⟨?_, ?_, ?_⟩
  · intro a p t
    refine ⟨?_, ?_, rfl, ?_⟩
    · show pstem p ++ ('.' :: (t ++ "_analysis.txt".data)) = _
      simp [List.append_assoc]
    · show endsW (pstem p ++ ('.' :: (t ++ "_analysis.txt".data))) ".txt".data = true
      have heq : pstem p ++ ('.' :: (t ++ "_analysis.txt".data)) =
          (pstem p ++ ('.' :: (t ++ "_analysis".data))) ++ ".txt".data := by
        simp [List.append_assoc]
      rw [heq]
      exact endsW_append _ _
    · have heq : (save_analysis a p t).2 =
          ((capitalizePy t ++ " Task Analysis".data) ++ ('\n' :: List.replicate 40 '=')) ++
            ("\n\n".data ++ (a ++ ['\n'])) := by
        show (capitalizePy t ++ " Task Analysis".data) ++
            ('\n' :: (List.replicate 40 '=' ++ ("\n\n".data ++ (a ++ ['\n'])))) = _
        simp [List.append_assoc]
      rw [heq]
      exact isPref_self_append _ _
  · intro a
    rfl
  · intro a
    rfl

/-- C4: the output path written by `save_analysis` is exactly the analysis
path `load_task_notes` probes for existence, and once that path is present in
the directory the loader can never return the saved-over source again. -/
theorem claim_save_load_dedup :
    (∀ a p t : List Char, (save_analysis a p t).1 = anaName p t) ∧
    (∀ (r dir : Bool) (files : List (List Char)) (t : List Char)
       (rf xf : List Char → List Char) (a p c q : List Char) (d : TS),
      (save_analysis a p t).1 ∈ files →
      load_task_notes r dir files t rf xf = .ok (c, q, d) → q ≠ p) := by
  refine ⟨fun a p t => rfl, ?_⟩
  intro r dir files t rf xf a p c q d hmem hload
  cases r with
  | false =>
    rw [(load_error_iff false dir files t rf xf).1.mpr rfl] at hload
    exact absurd hload (by simp)
  | true =>
    cases dir with
    | false =>
      rw [(load_error_iff true false files t rf xf).2.1.mpr ⟨rfl, rfl⟩] at hload
      exact absurd hload (by simp)
    | true =>
      rcases (load_ok_iff files t rf xf c q d).mp hload with ⟨-, ⟨-, -, hana⟩, -⟩
      intro hqp
      subst hqp
      exact hana hmem

/-- Witness for C4 at a concrete directory: saving `20250101_120000.txt`'s
daily analysis blocks it, so the loader picks `20250102_120000.txt`. -/
theorem claim_save_load_dedup_witness :
    ("20250102_120000.txt".data : List Char) ≠ "20250101_120000.txt".data :=
  claim_save_load_dedup.2 true true
    ["20250101_120000.txt".data, "20250101_120000.daily_analysis.txt".data,
     "20250102_120000.txt".data]
    "daily".data id id ("REPORT".data) "20250101_120000.txt".data
    "20250102_120000.txt".data ("20250102_120000.txt".data)
    ⟨2025, 1, 2, 12, 0, 0⟩ (by decide) (by rfl)

/-- C10: for every `now`, the computed window starts on a Monday at
00:00:00.000000, ends on the Sunday six days later at 23:59:59.999999, and
spans exactly 6 days 23:59:59.999999 — with no restriction on where `now`
falls, so the shape holds even when the window is not fully past. -/
theorem claim_window_shape (now : DT) :
    pyWeekday (windowOf now).1.day = 0 ∧ (windowOf now).1.tod = 0 ∧
    (windowOf now).2.day = (windowOf now).1.day + 6 ∧
    pyWeekday (windowOf now).2.day = 6 ∧
    (windowOf now).2.tod = 86399999999 ∧
    toMicros (windowOf now).2 - toMicros (windowOf now).1 = 604799999999 := by
  have hspan := windowOf_span now
  refine ⟨windowOf_start_monday now, hspan.2.1, hspan.1, windowOf_end_sunday now,
    hspan.2.2, ?_⟩
  unfold toMicros
  omega

/-- Counterexample to C2: on Sunday 2025-01-12 at noon the computed window is
the week ending that same Sunday, whose end boundary 23:59:59.999999 lies
after that instant — the window is not fully past. -/
theorem claim_week_window_cex :
    daysFromCivil 2025 1 12 = 20100 ∧
    pyWeekday (20100 : Int) = 6 ∧
    dtLe (windowOf ⟨20100, 43200000000⟩).2 ⟨20100, 43200000000⟩ = false ∧
    dtLt ⟨20100, 43200000000⟩ (windowOf ⟨20100, 43200000000⟩).2 = true := by
  refine ⟨by decide, by decide, by decide, by decide⟩

/-- C2 (amended): whenever the current instant falls Monday through Saturday
the computed window's end is at or before it; on a Sunday the window is instead the week
ending that same day at 23:59:59.999999 (so it is not yet fully past).  For
Wednesday 2025-01-15 the window is 2025-01-06 00:00:00 through 2025-01-12
23:59:59.999999, and the computation is idempotent: recomputing from the
window's own end yields the same window. -/
theorem claim_week_window_amended :
    (∀ now : DT, pyWeekday now.day ≠ 6 → dtLe (windowOf now).2 now = true) ∧
    (∀ now : DT, pyWeekday now.day = 6 →
      (windowOf now).2.day = now.day ∧ (windowOf now).2.tod = 86399999999) ∧
    windowOf ⟨daysFromCivil 2025 1 15, 43200000000⟩ =
      (⟨daysFromCivil 2025 1 6, 0⟩, ⟨daysFromCivil 2025 1 12, 86399999999⟩) ∧
    pyWeekday (daysFromCivil 2025 1 15) = 2 ∧
    (∀ now : DT, windowOf (windowOf now).2 = windowOf now) := by
  refine ⟨windowOf_past_of_not_sunday, ?_, by decide, by decide, windowOf_idem⟩
  intro now h
  exact ⟨windowOf_sunday_ends_today now h, (windowOf_span now).2.2⟩

/-- Witness for C2 (amended) on Wednesday 2025-01-15: the window end
2025-01-12 23:59:59.999999 is at or before that instant. -/
theorem claim_week_window_amended_witness :
    dtLe (windowOf ⟨20103, 0⟩).2 ⟨20103, 0⟩ = true :=
  claim_week_window_amended.1 ⟨20103, 0⟩ (by decide)

/-- C1: `load_task_notes` considers only recognized extensions, excludes
names containing `_analysis`, excludes files whose expected analysis output
already exists, and returns the greatest remaining candidate in descending
filename order (conversely, the greatest remaining candidate with a parseable
stem is returned); descending filename order is descending timestamp order for
names carrying the fixed-width `YYYYMMDD_HHMMSS` prefix. -/
theorem claim_loader_newest_unanalyzed :
    (∀ (files : List (List Char)) (t : List Char) (rf xf : List Char → List Char)
       (c p : List Char) (d : TS),
      load_task_notes true true files t rf xf = .ok (c, p, d) →
        p ∈ files ∧ recognizedExt p = true ∧ hasSub ("_analysis".data) p = false ∧
          anaName p t ∉ files ∧
          ∀ q ∈ files, recognizedExt q = true → hasSub ("_analysis".data) q = false →
            anaName q t ∉ files → lexLt p q = false) ∧
    (∀ (files : List (List Char)) (t : List Char) (rf xf : List Char → List Char)
       (p : List Char) (d : TS),
      p ∈ files → IsCand files t p →
      (∀ q ∈ files, IsCand files t q → lexLt p q = false) →
      strptimeYmdHMS (pstem p) = some d →
      load_task_notes true true files t rf xf = .ok (contentOf rf xf p, p, d)) ∧
    (∀ (t1 t2 : TS) (u v : List Char), wfTS t1 → wfTS t2 → tsLt t1 t2 = true →
      lexLt (fmt15 t1 ++ u) (fmt15 t2 ++ v) = true) := by
  refine ⟨?_, ?_, fun t1 t2 u v h1 h2 hlt => fmt15_order h1 h2 hlt u v⟩
  · intro files t rf xf c p d hload
    rcases (load_ok_iff files t rf xf c p d).mp hload with
      ⟨hfiles, ⟨hrec, hsub, hana⟩, hmax, -, -⟩
    refine ⟨hfiles, hrec, hsub, hana, ?_⟩
    intro q hq hqrec hqsub hqana
    exact hmax q hq ⟨hqrec, hqsub, hqana⟩
  · intro files t rf xf p d hfiles hcand hmax hparse
    exact (load_ok_iff files t rf xf (contentOf rf xf p) p d).mpr
      ⟨hfiles, hcand, hmax, hparse, rfl⟩

/-- Witness for C1: in a directory holding two notes files and one existing
analysis, the loader returns the newer unanalyzed file. -/
theorem claim_loader_newest_unanalyzed_witness :
    load_task_notes true true
      ["20250101_120000.txt".data, "20250102_120000.png".data,
       "20250101_120000.daily_analysis.txt".data, "notes_analysis.txt".data]
      "daily".data id (fun _ => "EXTRACTED".data) =
      .ok ("EXTRACTED".data, "20250102_120000.png".data, ⟨2025, 1, 2, 12, 0, 0⟩) :=
  claim_loader_newest_unanalyzed.2.1
    ["20250101_120000.txt".data, "20250102_120000.png".data,
     "20250101_120000.daily_analysis.txt".data, "notes_analysis.txt".data]
    "daily".data id (fun _ => "EXTRACTED".data) "20250102_120000.png".data
    ⟨2025, 1, 2, 12, 0, 0⟩ (by decide) (by decide) (by decide) (by decide)

/-- Counterexample to C6: the stem `2025123_140000` (seven digits before the
underscore) does not match `YYYYMMDD_HHMMSS`, yet the daily loader selects the
file and succeeds — `strptime` leniently parses it as 2025-12-03 14:00:00 —
instead of raising a parse error. -/
theorem claim_parse_format_cex :
    matchesExact ("2025123_140000".data) = false ∧
    load_task_notes true true ["2025123_140000.txt".data] "daily".data id id =
      .ok ("2025123_140000.txt".data, "2025123_140000.txt".data,
        ⟨2025, 12, 3, 14, 0, 0⟩) :=
  ⟨by decide, by rfl⟩

/-- C6 (amended): the stem format accepted by the loaders is Python's
`%Y%m%d_%H%M%S` parse, which is lenient (e.g. one-digit months, days and
truncated time fields also parse), not an exact `YYYYMMDD_HHMMSS` match.  A
selected candidate whose stem fails that parse makes `load_task_notes` raise
the fatal parse error, whereas `collect_weekly_analyses` silently skips
analysis files whose stems fail the parse. -/
theorem claim_parse_failure_amended :
    (∀ (files : List (List Char)) (t : List Char) (rf xf : List Char → List Char),
      load_task_notes true true files t rf xf = .error .parseFail ↔
        ∃ n, n ∈ files ∧ IsCand files t n ∧
          (∀ q ∈ files, IsCand files t q → lexLt n q = false) ∧
          strptimeYmdHMS (pstem n) = none) ∧
    (∀ (ws we : DT) (content : List Char → List Char) (p : List Char)
       (l : List (List Char)),
      strptimeYmdHMS (takeUntilDot (pstem p)) = none →
        (p :: l).filterMap (procFile ws we content) =
          l.filterMap (procFile ws we content)) := by
  constructor
  · intro files t rf xf
    have h := (load_error_iff true true files t rf xf).2.2.2
    rw [h]
    constructor
    · rintro ⟨-, -, hex⟩
      exact hex
    · intro hex
      exact ⟨rfl, rfl, hex⟩
  · intro ws we content p l hparse
    rw [List.filterMap_cons, procFile_skip hparse]

/-- Witness for C6 (amended): a directory whose only candidate has an
unparseable stem makes the loader fail with the parse error. -/
theorem claim_parse_failure_amended_witness :
    load_task_notes true true ["badname.txt".data] "daily".data id id =
      .error .parseFail :=
  (claim_parse_failure_amended.1 ["badname.txt".data] "daily".data id id).mpr
    ⟨"badname.txt".data, by decide, by decide, by decide, by decide⟩

/-- Counterexample to C7: with the root and the period directory both present
and a candidate (`badname.txt`) that has no analysis output, the loader still
raises an error — the `strptime` `ValueError` — so errors are not raised
exactly in the three cases the claim lists. -/
theorem claim_loader_errors_cex :
    load_task_notes true true ["badname.txt".data] "daily".data id id =
      .error .parseFail ∧
    ∃ n, n ∈ (["badname.txt".data] : List (List Char)) ∧
      IsCand ["badname.txt".data] "daily".data n :=
  ⟨by rfl, "badname.txt".data, by decide, by decide⟩

/-- C7 (amended): `load_task_notes` raises the not-mounted error exactly when
the root is absent, the directory-missing error exactly when the root is
present and the period subdirectory absent, the no-unanalyzed error exactly
when both are present and no remaining candidate exists — and additionally a
fatal parse error exactly when the selected (greatest) remaining candidate's
stem does not parse. -/
theorem claim_loader_errors_amended :
    ∀ (r dir : Bool) (files : List (List Char)) (t : List Char)
      (rf xf : List Char → List Char),
      (load_task_notes r dir files t rf xf = .error .notMounted ↔ r = false) ∧
      (load_task_notes r dir files t rf xf = .error .dirMissing ↔
        r = true ∧ dir = false) ∧
      (load_task_notes r dir files t rf xf = .error .noUnanalyzed ↔
        r = true ∧ dir = true ∧ ∀ n ∈ files, ¬ IsCand files t n) ∧
      (load_task_notes r dir files t rf xf = .error .parseFail ↔
        r = true ∧ dir = true ∧ ∃ n, n ∈ files ∧ IsCand files t n ∧
          (∀ q ∈ files, IsCand files t q → lexLt n q = false) ∧
          strptimeYmdHMS (pstem n) = none) :=
  fun r dir files t rf xf => load_error_iff r dir files t rf xf

/-- Witness for C7 (amended): a directory whose only candidate already has
its analysis output fails with the no-unanalyzed error. -/
theorem claim_loader_errors_amended_witness :
    load_task_notes true true
      ["20250101_120000.txt".data, "20250101_120000.daily_analysis.txt".data]
      "daily".data id id = .error .noUnanalyzed :=
  (claim_loader_errors_amended true true
    ["20250101_120000.txt".data, "20250101_120000.daily_analysis.txt".data]
    "daily".data id id).2.2.1.mpr ⟨rfl, rfl, by decide⟩

/-- Counterexample to C5: with analysis files `20250201_000000.…` and
`2025131_120000.…` (the latter leniently parsed as 2025-01-31 12:00:00) both
inside the week Jan 27 – Feb 2 2025, the aggregator emits the February 1 entry
before the January 31 entry — ascending filename order, but descending
timestamp order. -/
theorem claim_weekly_order_cex :
    daysFromCivil 2025 2 5 = 20124 ∧
    pairSeq ["20250201_000000.daily_analysis.txt".data,
             "2025131_120000.daily_analysis.txt".data] ⟨20124, 0⟩ =
      [("20250201_000000.daily_analysis.txt".data, ⟨2025, 2, 1, 0, 0, 0⟩),
       ("2025131_120000.daily_analysis.txt".data, ⟨2025, 1, 31, 12, 0, 0⟩)] ∧
    tsLt ⟨2025, 1, 31, 12, 0, 0⟩ ⟨2025, 2, 1, 0, 0, 0⟩ = true ∧
    collectedOf ["20250201_000000.daily_analysis.txt".data,
                 "2025131_120000.daily_analysis.txt".data]
        (fun _ => "C".data) ⟨20124, 0⟩ =
      ["## Saturday, February 01, 2025\n\nC".data,
       "## Friday, January 31, 2025\n\nC".data] :=
  ⟨by decide, by decide, by decide, by decide⟩

/-- C5 (amended): the aggregator retains exactly the analysis files whose
parsed stem timestamp lies within the inclusive window bounds, emits for each
one a `## {date label}` block over its content, joined by horizontal rules in
ascending *filename* order — which agrees with ascending timestamp order
whenever the stems carry their fixed-width `YYYYMMDD_HHMMSS` rendering — and
raises the no-records error exactly when zero files fall in the window. -/
theorem claim_weekly_aggregation_amended :
    (∀ (files : List (List Char)) (content : List Char → List Char) (now : DT)
       (s : List Char),
      s ∈ collectedOf files content now ↔
        ∃ p, p ∈ files ∧ endsW p (".daily_analysis.txt".data) = true ∧
          ∃ ts, strptimeYmdHMS (takeUntilDot (pstem p)) = some ts ∧
            dtLe (windowOf now).1 (toDT ts) = true ∧
            dtLe (toDT ts) (windowOf now).2 = true ∧
            s = "## ".data ++ dateLabel ts ++ "\n\n".data ++ content p) ∧
    (∀ (files : List (List Char)) (content : List Char → List Char) (now : DT),
      (collect_weekly_analyses true true files content now = .error .noRecords ↔
        collectedOf files content now = []) ∧
      (collectedOf files content now ≠ [] →
        collect_weekly_analyses true true files content now =
          .ok (List.intercalate ("\n\n---\n\n".data) (collectedOf files content now),
            weeklyOutName (windowOf now).1, (windowOf now).1, (windowOf now).2))) ∧
    (∀ (files : List (List Char)) (content : List Char → List Char) (now : DT),
      collectedOf files content now =
        (pairSeq files now).map
          (fun pt => "## ".data ++ dateLabel pt.2 ++ "\n\n".data ++ content pt.1)) ∧
    (∀ (files : List (List Char)) (now : DT),
      (pairSeq files now).Pairwise (fun a b => lexLt b.1 a.1 = false)) ∧
    (∀ (files : List (List Char)) (now : DT),
      (pairSeq files now).Pairwise (fun a b =>
        (∃ u, a.1 = fmt15 a.2 ++ u) → (∃ v, b.1 = fmt15 b.2 ++ v) →
          wfTS a.2 → wfTS b.2 → tsLt b.2 a.2 = false)) := by
  refine ⟨fun files content now s => mem_collectedOf, ?_, ?_,
    pairSeq_names_sorted, pairSeq_ts_ascending⟩
  · intro files content now
    rw [collect_eval]
    by_cases h : collectedOf files content now = []
    · rw [if_pos (by simp [h])]
      exact ⟨⟨fun _ => h, fun _ => rfl⟩, fun hne => absurd h hne⟩
    · rw [if_neg (by simpa [List.isEmpty_iff] using h)]
      refine ⟨⟨fun hc => absurd hc (by simp), fun hc => absurd hc h⟩, fun _ => rfl⟩
  · intro files content now
    unfold collectedOf pairSeq procFile
    exact filterMap_pair _ _ _

/-- Witness for C5 (amended), the spec's own scenario: two in-range analysis
files and one out-of-range file produce a successful weekly collection. -/
theorem claim_weekly_aggregation_amended_witness :
    collect_weekly_analyses true true
      ["20250128_090000.daily_analysis.txt".data,
       "20250130_090000.daily_analysis.txt".data,
       "20250601_090000.daily_analysis.txt".data] (fun _ => "C".data) ⟨20124, 0⟩ =
      .ok (List.intercalate ("\n\n---\n\n".data)
            (collectedOf
              ["20250128_090000.daily_analysis.txt".data,
               "20250130_090000.daily_analysis.txt".data,
               "20250601_090000.daily_analysis.txt".data] (fun _ => "C".data) ⟨20124, 0⟩),
        weeklyOutName (windowOf ⟨20124, 0⟩).1,
        (windowOf ⟨20124, 0⟩).1, (windowOf ⟨20124, 0⟩).2) :=
  (claim_weekly_aggregation_amended.2.1
    ["20250128_090000.daily_analysis.txt".data,
     "20250130_090000.daily_analysis.txt".data,
     "20250601_090000.daily_analysis.txt".data] (fun _ => "C".data) ⟨20124, 0⟩).2
    (by decide)

/-- Counterexample to C8: a run whose daily items all succeed but whose weekly
roll-up loop records one failure still exits with code 0, not 1. -/
theorem claim_exit_code_cex :
    cliExitCode
        (.ok [("20250101_120000.txt".data,
          .ok ("20250101_120000.daily_analysis.txt".data))])
        (.ok [false]) = 0 ∧
    List.countP (fun b => !b) [false] = 1 :=
  ⟨rfl, rfl⟩

/-- C8 (amended): the batch CLI exits 1 exactly when loading failed fatally,
the weekly due-ness scan failed fatally, or at least one daily item failed;
per-week roll-up failures are tallied but do not affect the exit code, so a
run with only weekly failures exits 0. -/
theorem claim_exit_code_amended :
    ∀ (loadRes : Except Unit (List (List Char × Except (List Char) (List Char))))
      (weeksRes : Except Unit (List Bool)),
      (cliExitCode loadRes weeksRes = 0 ∨ cliExitCode loadRes weeksRes = 1) ∧
      (cliExitCode loadRes weeksRes = 1 ↔
        loadRes = .error () ∨ weeksRes = .error () ∨
          ∃ items, loadRes = .ok items ∧
            0 < items.countP (fun it => !it.2.isOk)) ∧
      (∀ items weeks, loadRes = .ok items → weeksRes = .ok weeks →
        items.countP (fun it => !it.2.isOk) = 0 →
        cliExitCode loadRes weeksRes = 0) := by
  intro loadRes weeksRes
  cases loadRes with
  | error u =>
    cases u
    refine ⟨Or.inr rfl, ⟨fun _ => Or.inl rfl, fun _ => rfl⟩, ?_⟩
    intro items weeks h1
    exact absurd h1 (by simp)
  | ok items =>
    have hf := batchCounts_failed items
    cases weeksRes with
    | error u =>
      cases u
      refine ⟨Or.inr rfl, ⟨fun _ => Or.inr (Or.inl rfl), fun _ => rfl⟩, ?_⟩
      intro items' weeks h1 h2
      exact absurd h2 (by simp)
    | ok weeks =>
      by_cases h : 0 < items.countP (fun it => !it.2.isOk)
      · have hexit : cliExitCode (.ok items) (.ok weeks) = 1 := by
          simp [cliExitCode, hf, h]
        refine ⟨Or.inr hexit,
          ⟨fun _ => Or.inr (Or.inr ⟨items, rfl, h⟩), fun _ => hexit⟩, ?_⟩
        intro items' weeks' h1 h2 h3
        injection h1 with h1
        subst h1
        omega
      · have hexit : cliExitCode (.ok items) (.ok weeks) = 0 := by
          simp [cliExitCode, hf, h]
        refine ⟨Or.inl hexit, ?_, fun _ _ _ _ _ => hexit⟩
        constructor
        · intro h1
          rw [hexit] at h1
          exact absurd h1 (by simp)
        · rintro (h1 | h1 | ⟨items', h1, h2⟩)
          · exact absurd h1 (by simp)
          · exact absurd h1 (by simp)
          · injection h1 with h1
            subst h1
            exact absurd h2 h

/-- Witness for C8 (amended): all items succeeding gives exit code 0. -/
theorem claim_exit_code_amended_witness :
    cliExitCode
        (.ok [("20250101_120000.txt".data,
          .ok ("20250101_120000.daily_analysis.txt".data))])
        (.ok [true]) = 0 :=
  (claim_exit_code_amended
    (.ok [("20250101_120000.txt".data,
      .ok ("20250101_120000.daily_analysis.txt".data))])
    (.ok [true])).2.2
    [("20250101_120000.txt".data, .ok ("20250101_120000.daily_analysis.txt".data))]
    [true] rfl rfl (by decide)

/-- C9: each batch item is processed through `analyze_single_file`'s own
try/except — a failing item yields a per-item record carrying its message,
leaves every other item's record unchanged (the results are exactly the
item-wise map), and forces a non-zero failed count in the summary tally. -/
theorem claim_per_item_isolation :
    (∀ (pre post : List (List Char × Except (List Char) (List Char))) x,
      batchResults (pre ++ x :: post) =
        batchResults pre ++ analyze_single_file x.1 x.2 :: batchResults post) ∧
    (∀ items, (batchResults items).length = items.length) ∧
    (∀ items, (batchCounts (batchResults items)).2 =
        items.countP (fun it => !it.2.isOk) ∧
      (batchCounts (batchResults items)).1 =
        items.countP (fun it => it.2.isOk)) ∧
    (∀ items (p msg : List Char), (p, Except.error msg) ∈ items →
      (p, (none : Option (List Char)), false, some msg) ∈ batchResults items ∧
      0 < (batchCounts (batchResults items)).2) ∧
    (∀ p msg : List Char,
      analyze_single_file p (.error msg) = (p, none, false, some msg)) ∧
    (∀ p out : List Char,
      analyze_single_file p (.ok out) = (p, some out, true, none)) := by
  refine ⟨?_, ?_, ?_, ?_, fun p msg => rfl, fun p out => rfl⟩
  · intro pre post x
    unfold batchResults
    simp
  · intro items
    unfold batchResults
    simp
  · intro items
    exact ⟨batchCounts_failed items, batchCounts_ok items⟩
  · intro items p msg hmem
    constructor
    · exact List.mem_map_of_mem (fun it => analyze_single_file it.1 it.2) hmem
    · rw [batchCounts_failed]
      exact List.countP_pos_iff.mpr ⟨(p, Except.error msg), hmem, rfl⟩

/-- Witness for C9 on a two-item batch with one failing item: the failure
record is present and the failed count is positive. -/
theorem claim_per_item_isolation_witness :
    (("a".data, (none : Option (List Char)), false, some ("boom".data)) ∈
      batchResults
        [("a".data, Except.error ("boom".data)), ("b".data, Except.ok ("out".data))]) ∧
    0 < (batchCounts (batchResults
      [("a".data, Except.error ("boom".data)), ("b".data, Except.ok ("out".data))])).2 :=
  claim_per_item_isolation.2.2.2.1
    [("a".data, Except.error ("boom".data)), ("b".data, Except.ok ("out".data))]
    "a".data ("boom".data) (List.mem_cons_self _ _)
